import Mathlib

/-!
Verification development for the sliding-window re-ranking core of SweRank
(`src/reranker/utils/rankllm.py`, class `RankLLM`).

The Python code is shallowly embedded as executable Lean functions.
Conventions used throughout:

* Python strings are modelled as `String` / `List Char`.  Character
  predicates (`isalpha`, `isdigit`, whitespace) are modelled by the ASCII
  predicates `Char.isAlpha`, `Char.isDigit`, `Char.isWhitespace`; all inputs
  appearing in the claims are ASCII, where the Python predicates coincide
  with these.
* A Python function that can raise an exception is modelled as returning
  `Option _`, with `none` standing for the raised exception
  (`KeyError` / `IndexError`).
* Loops whose textual termination argument is not structural are given an
  explicit fuel parameter; the top-level wrappers instantiate the fuel with
  a bound that dominates the number of iterations the Python loop performs
  (noted at each definition), so that on the Python-reachable inputs the
  fuel never runs out.
* `Hit` records (Python dicts) are modelled as a record with an opaque
  payload (`docid`) plus the two fields the core reads and writes, `rank`
  and `score`, both optional to model presence or absence of the dict key.
-/

namespace SweRank

/-! ## Python string primitives -/

/-- Python `str.strip()` on a character list: remove leading and trailing
whitespace. -/
def pyStrip (l : List Char) : List Char :=
  ((l.dropWhile Char.isWhitespace).reverse.dropWhile Char.isWhitespace).reverse

/-- Helper for Python `str.split()` (no separator argument): tokenize on runs
of whitespace, dropping empty tokens.  `acc` holds the current token in
reverse. -/
def pySplitAux : List Char → List Char → List (List Char)
  | [], acc => if acc.isEmpty then [] else [acc.reverse]
  | c :: s, acc =>
    if c.isWhitespace then
      if acc.isEmpty then pySplitAux s [] else acc.reverse :: pySplitAux s []
    else pySplitAux s (c :: acc)

/-- Python `str.split()` with no separator. -/
def pySplit (s : String) : List (List Char) := pySplitAux s.data []

/-- Python `int()` on a token consisting of decimal digits.  Every token this
is applied to in `receive_permutation` comes out of `_clean_response`, whose
output consists of digit characters separated by spaces, so the sign and
whitespace handling of the general Python `int()` is not needed. -/
def pyIntStr (tok : List Char) : Int :=
  (tok.foldl (fun a c => a * 10 + (c.toNat - 48)) 0 : Nat)

/-- Index (0-based) of the first occurrence of `pat` in a list, Python
`str.index` / the `in` operator (`some` iff `pat in s`). -/
def firstIdx (pat : List Char) : List Char → Option Nat
  | [] => if pat.isEmpty then some 0 else none
  | c :: s =>
    if pat.isPrefixOf (c :: s) then some 0
    else (firstIdx pat s).map (· + 1)

/-- Helper for Python `str.replace(pat, repl)` (all occurrences, scanning
left to right and continuing after the replacement).  Fuel-driven: each step
consumes at least one character of `s`, so fuel `s.length + 1` (used by
`replaceAll`) never runs out. -/
def replaceAllAux (pat repl : List Char) : Nat → List Char → List Char
  | 0, s => s
  | _, [] => []
  | fuel + 1, c :: s =>
    if pat ≠ [] ∧ pat.isPrefixOf (c :: s) then
      repl ++ replaceAllAux pat repl fuel ((c :: s).drop pat.length)
    else
      c :: replaceAllAux pat repl fuel s

/-- Python `str.replace(pat, repl)`. -/
def replaceAll (pat repl s : List Char) : List Char :=
  replaceAllAux pat repl (s.length + 1) s

/-! ## Data model

Modelled from the spec: the `Result` class itself lives in
`src/reranker/utils/result.py`, which is not part of the given sources; the
fields below are the ones `rankllm.py` reads and writes, shaped as spec §3
describes them (a ranking owns an ordered hit list plus an appendable
execution-trace sequence; a hit is an associative record with optional
`rank` and `score` fields and an opaque payload). -/

/-- One retrieved item.  `docid` stands for the opaque payload of the Python
dict; `rank` and `score` are `none` when the corresponding dict key is
absent. -/
structure Hit where
  docid : Nat
  rank : Option Int
  score : Option Int
deriving DecidableEq, Repr

/-- One execution-trace entry (`RankingExecInfo(prompt, response, input_token_count, output_token_count)`). -/
structure RankingExecInfo where
  prompt : String
  response : String
  input_token_count : Nat
  output_token_count : Nat
deriving DecidableEq, Repr

/-- One query's ranked candidate list plus its execution trace
(`ranking_exec_summary` is `none` until first use, as in the Python class). -/
structure Result where
  hits : List Hit
  ranking_exec_summary : Option (List RankingExecInfo)
deriving DecidableEq, Repr

/-! ## Permutation parser: `parse_reasoning_permutation` (lines 355-385)

The regex `\s*(\[\d+\](?:\s*>\s*\[\d+\])*)\s*` contains no `.` and no
anchors, so the `re.DOTALL | re.MULTILINE` flags on the second `findall`
are inert and both `findall` calls behave identically.  The pattern is
deterministic (no backtracking can change a match: after greedy `\s*` the
next required character, `>` or `[`, is never whitespace), so `re.findall`
is modelled by a direct left-to-right scanner returning the list of group
captures of the non-overlapping matches. -/

/-- Match `\[\d+\]` at the head of the input; on success return the matched
text and the remaining input. -/
def matchBracket : List Char → Option (List Char × List Char)
  | '[' :: rest =>
    let ds := rest.takeWhile Char.isDigit
    let r2 := rest.dropWhile Char.isDigit
    if ds.isEmpty then none
    else
      match r2 with
      | ']' :: r3 => some ('[' :: (ds ++ [']']), r3)
      | _ => none
  | _ => none

/-- Match the greedy repetition `(?:\s*>\s*\[\d+\])*` at the head of the
input; return the matched text and the remaining input.  Each successful
iteration consumes at least two characters, so fuel `input.length` (as
passed by `faAux`) never runs out. -/
def chainAux : Nat → List Char → List Char × List Char
  | 0, s => ([], s)
  | fuel + 1, s =>
    let ws1 := s.takeWhile Char.isWhitespace
    match s.dropWhile Char.isWhitespace with
    | '>' :: r1 =>
      let ws2 := r1.takeWhile Char.isWhitespace
      match matchBracket (r1.dropWhile Char.isWhitespace) with
      | some (btxt, r2) =>
        let res := chainAux fuel r2
        (ws1 ++ '>' :: (ws2 ++ btxt ++ res.1), res.2)
      | none => ([], s)
    | _ => ([], s)

/-- Left-to-right scan collecting the group captures of the non-overlapping
matches of `\s*(\[\d+\](?:\s*>\s*\[\d+\])*)\s*`, i.e. `re.findall`.  Each
step consumes at least one character, so fuel `s.length + 1` (used by
`findallRanked`) never runs out. -/
def faAux : Nat → List Char → List (List Char)
  | 0, _ => []
  | _, [] => []
  | fuel + 1, c :: s =>
    let t := (c :: s).dropWhile Char.isWhitespace
    match matchBracket t with
    | some (b, r1) =>
      let res := chainAux r1.length r1
      (b ++ res.1) :: faAux fuel (res.2.dropWhile Char.isWhitespace)
    | none => faAux fuel s

/-- `re.findall(ranked_list_pattern, s)`: the list of captured groups. -/
def findallRanked (s : List Char) : List (List Char) := faAux (s.length + 1) s

def endOfReasoningTag : List Char := "</think>".data
def startOfAnswerTag : List Char := "<answer>".data
def endOfAnswerTag : List Char := "</answer>".data

/-- `end_of_answer_tag in response and end_of_reasoning_tag in response`. -/
def hasBothMarkers (response : String) : Bool :=
  (firstIdx endOfAnswerTag response.data).isSome &&
    (firstIdx endOfReasoningTag response.data).isSome

/-- The region the code extracts between the markers:
`response[response.index("</think>"):response.index("</answer>")].replace("<answer>", '').strip()`.
(The slice starts at the first character of `"</think>"` itself; it is empty
when the `"</answer>"` occurrence comes first.)  Only meaningful when both
markers are present; returns `[]` otherwise. -/
def regionOf (response : String) : List Char :=
  match firstIdx endOfReasoningTag response.data, firstIdx endOfAnswerTag response.data with
  | some i1, some i2 =>
    pyStrip (replaceAll startOfAnswerTag [] ((response.data.take i2).drop i1))
  | _, _ => []

/-- Lines 355-385: extract an ordered-list permutation from a reasoning-model
response.  Returns the extracted text and whether a pattern was matched. -/
def parse_reasoning_permutation (response : String) : String × Bool :=
  let fallbackScan : String × Bool :=
    match (findallRanked response.data).find? (fun cand => cand.contains '>') with
    | some cand => (String.mk cand, true)
    | none => (response, false)
  if hasBothMarkers response then
    match findallRanked (regionOf response) with
    | g :: _ =>
      let mrl := pyStrip g
      if mrl.isEmpty then fallbackScan else (String.mk mrl, true)
    | [] => fallbackScan
  else fallbackScan

/-! ## `_clean_response` (lines 387-408) -/

/-- `ALPH_START_IDX = ord('A') - 1 = 64`. -/
def ALPH_START_IDX : Nat := 'A'.toNat - 1

/-- Lines 387-408.  `rerank_type` models `self._rerank_type` (set by the
concrete subclass); when it equals `"code_reasoning"` the response is first
run through `parse_reasoning_permutation`.  In alphabetic mode each
alphabetic character `c` contributes the decimal digits of
`ord(c) - ALPH_START_IDX` and every other character contributes one space;
in numeric mode digits are kept and every other character becomes one
space.  The result is stripped at both ends only (Python `str.strip`);
interior runs of spaces are NOT collapsed. -/
def _clean_response (rerank_type : String) (response : String) (use_alpha : Bool) : String :=
  let response :=
    if rerank_type = "code_reasoning" then (parse_reasoning_permutation response).1
    else response
  if use_alpha then
    String.mk (pyStrip ((response.data.map (fun c =>
      if c.isAlpha then (toString (c.toNat - ALPH_START_IDX)).data else [' '])).flatten))
  else
    String.mk (pyStrip (response.data.map (fun c => if c.isDigit then c else ' ')))

/-! ## `_remove_duplicate` (lines 410-415) and the merge index pipeline -/

/-- The loop of `_remove_duplicate`: `acc` is the `new_response` list being
built; an element is appended only if it is not already present, so the
first occurrence wins. -/
def rdAux : List Int → List Int → List Int
  | acc, [] => acc
  | acc, c :: rest => if c ∈ acc then rdAux acc rest else rdAux (acc ++ [c]) rest

/-- Lines 410-415: de-duplicate, keeping first occurrences in order. -/
def _remove_duplicate (response : List Int) : List Int := rdAux [] response

/-- Lines 445-446 of `receive_permutation`: clean the raw permutation and
parse it into 0-based indices (`int(x) - 1` for each whitespace token). -/
def parsePermutation (rerank_type : String) (raw : String) (use_alpha : Bool) : List Int :=
  (pySplit (_clean_response rerank_type raw use_alpha)).map (fun x => pyIntStr x - 1)

/-- `original_rank = [tt for tt in range(len(cut_range))]` as integers. -/
def rangeInts (n : Nat) : List Int := List.map Nat.cast (List.range n)

/-- Lines 445-451: the full index pipeline of `receive_permutation` for a
slice of length `n`: parse, de-duplicate, keep only indices in `[0, n)`
(`ss in original_rank`), then append the unmentioned indices of `range n`
in order. -/
def mergeIndices (rerank_type : String) (raw : String) (use_alpha : Bool) (n : Nat) : List Int :=
  let deduped := _remove_duplicate (parsePermutation rerank_type raw use_alpha)
  let inRange := deduped.filter (fun ss => decide (0 ≤ ss ∧ ss < (n : Int)))
  inRange ++ (rangeInts n).filter (fun t => decide (t ∉ inRange))

/-! ## `receive_permutation` write-back loop (lines 452-457) -/

/-- One iteration body of the write-back loop for output position `j` and
source index `x`:

* `result.hits[j + rank_start] = copy.deepcopy(cut_range[x])` — reading
  `cut_range[x]`; `x` is always in `[0, n)` here because the preceding
  filter discarded everything else (so Python's negative-index semantics is
  unreachable; any other `x` is modelled as a failure);
* `if "rank" in result.hits[j + rank_start]` — the key test is made on the
  hit just MOVED into position `j`, while the replacement value is read from
  `cut_range[j]["rank"]`, which raises `KeyError` (modelled as `none`) when
  the hit originally at `j` lacks the key; likewise for `"score"`. -/
def patchAt (cut : List Hit) (x : Int) (j : Nat) : Option Hit :=
  if x < 0 then none
  else
    match cut[x.toNat]? with
    | none => none
    | some moved =>
      let step1 : Option Hit :=
        match moved.rank with
        | some _ =>
          match cut[j]? with
          | none => none
          | some orig =>
            match orig.rank with
            | none => none
            | some r => some { moved with rank := some r }
        | none => some moved
      match step1 with
      | none => none
      | some h1 =>
        match h1.score with
        | some _ =>
          match cut[j]? with
          | none => none
          | some orig =>
            match orig.score with
            | none => none
            | some sc => some { h1 with score := some sc }
        | none => some h1

/-- `for j, x in enumerate(response): result.hits[j + rank_start] = ...`:
sequentially overwrite positions `rank_start`, `rank_start + 1`, … of `hits`
with the patched hits.  (`List.set` out of range is a no-op; the Python
index `j + rank_start` is always in range because the response has exactly
the length of the slice `hits[rank_start:rank_end]`.) -/
def writeBack (cut : List Hit) (rank_start : Nat) : List Int → Nat → List Hit → Option (List Hit)
  | [], _, hits => some hits
  | x :: rest, j, hits =>
    match patchAt cut x j with
    | none => none
    | some h => writeBack cut rank_start rest (j + 1) (hits.set (j + rank_start) h)

/-- Lines 417-458: apply a raw permutation string to
`result.hits[rank_start:rank_end]`.  `none` models a raised
`KeyError`/`IndexError`. -/
def receive_permutation (rerank_type : String) (result : Result) (permutation : String)
    (rank_start rank_end : Nat) (use_alpha : Bool) : Option Result :=
  let cut_range := (result.hits.drop rank_start).take (rank_end - rank_start)
  let response := mergeIndices rerank_type permutation use_alpha cut_range.length
  (writeBack cut_range rank_start response 0 result.hits).map
    (fun h => { result with hits := h })

/-! ## Window sequences

`sliding_windows` / `sliding_windows_batched` (lines 230-245 / 270-284)
drive the loop

    end_pos = rank_end; start_pos = rank_end - window_size
    while end_pos > rank_start and start_pos + step != rank_start:
        start_pos = max(start_pos, rank_start)
        <process window (start_pos, end_pos)>
        end_pos -= step; start_pos -= step

(note that the decrement applies to the CLAMPED `start_pos`), while
`get_ranking_cost` (lines 339-348) drives

    end_pos = rank_end; start_pos = rank_end - window_size
    while start_pos >= rank_start:
        start_pos = max(start_pos, rank_start)
        <count window (start_pos, end_pos)>
        end_pos -= step; start_pos -= step

Positions are Python ints (they go negative), hence `Int`.  Both loops are
fuel-driven here; with `step ≥ 1` and `window_size ≥ 0` each loop runs at
most `(rank_end - rank_start).toNat + 1` iterations (`end_pos` starts at
`rank_end` and must stay above `rank_start` / `start_pos` starts at
`rank_end - window_size ≤ rank_end` and must stay at least `rank_start`,
each decreasing by `step ≥ 1`), which is the fuel the wrappers pass, so on
the Python-terminating inputs the fuel never runs out. -/

/-- The `(start, end)` window sequence processed by `sliding_windows` and
`sliding_windows_batched`. -/
def schedWinF (rank_start step : Int) : Nat → Int → Int → List (Int × Int)
  | 0, _, _ => []
  | fuel + 1, end_pos, start_pos =>
    if rank_start < end_pos ∧ start_pos + step ≠ rank_start then
      (max start_pos rank_start, end_pos) ::
        schedWinF rank_start step fuel (end_pos - step) (max start_pos rank_start - step)
    else []

/-- Window sequence of the sliding-window scheduler (lines 230-241). -/
def schedulerWindows (rank_start rank_end window_size step : Int) : List (Int × Int) :=
  schedWinF rank_start step ((rank_end - rank_start).toNat + 1) rank_end
    (rank_end - window_size)

/-- The `(start, end)` window sequence visited by `get_ranking_cost`. -/
def costWinF (rank_start step : Int) : Nat → Int → Int → List (Int × Int)
  | 0, _, _ => []
  | fuel + 1, end_pos, start_pos =>
    if rank_start ≤ start_pos then
      (max start_pos rank_start, end_pos) ::
        costWinF rank_start step fuel (end_pos - step) (start_pos - step)
    else []

/-- Window sequence of the measured cost estimator (lines 339-348). -/
def costWindows (rank_start rank_end window_size step : Int) : List (Int × Int) :=
  costWinF rank_start step ((rank_end - rank_start).toNat + 1) rank_end
    (rank_end - window_size)

/-! ## Store model of the mutating pipeline

Python `Result` objects are mutable heap objects; `sliding_windows` /
`sliding_windows_batched` take caller-owned objects, `copy.deepcopy` them
and mutate only the copies.  To state that, results live in a `Store`
(addresses are list indices) and each pipeline stage is a store
transformer.  `copy.deepcopy` appends a value copy at a fresh address. -/

/-- The heap of `Result` objects; an address is an index into the list. -/
abbrev Store : Type := List Result

/-- The external collaborators of the core (abstract methods of `RankLLM`),
plus `self._rerank_type`.  Argument order follows the call sites:
`create_prompt(result, use_alpha, rank_start, rank_end)`,
`run_llm(prompt, use_logits, use_alpha, current_window_size)`,
`create_prompt_batched(results, use_alpha, rank_start, rank_end, batch_size)`,
`run_llm_batched(prompts, use_logits, use_alpha, current_window_size)`. -/
structure Oracle where
  create_prompt : Result → Bool → Nat → Nat → String × Nat
  run_llm : String → Bool → Bool → Nat → String × Nat
  create_prompt_batched : List Result → Bool → Nat → Nat → Nat → List (String × Nat)
  run_llm_batched : List String → Bool → Bool → Nat → List (String × Nat)
  rerank_type : String

/-- Lines 130-166, `permutation_pipeline`: render the prompt for the result
at address `i`, run the oracle, append the execution-trace entry
(initialising the summary to `[]` when it is `None`), then apply
`receive_permutation`.  Mutates only address `i`. -/
def permutation_pipeline_st (O : Oracle) (σ : Store) (i : Nat)
    (use_logits use_alpha : Bool) (rank_start rank_end : Nat) : Option Store := do
  let result ← σ[i]?
  let pr := O.create_prompt result use_alpha rank_start rank_end
  let out := O.run_llm pr.1 use_logits use_alpha (rank_end - rank_start)
  let info : RankingExecInfo := ⟨pr.1, out.1, pr.2, out.2⟩
  let r1 : Result :=
    { result with ranking_exec_summary := some ((result.ranking_exec_summary.getD []) ++ [info]) }
  let r2 ← receive_permutation O.rerank_type r1 out.1 rank_start rank_end use_alpha
  pure (σ.set i r2)

/-- The `for index, (result, (prompt, in_token_count)) in enumerate(zip(results, prompts))`
loop of `permutation_pipeline_batched` (lines 191-202).  `zip` silently
truncates to the SHORTER of the two sequences; `batched_results[index]`
raises `IndexError` (modelled `none`) when the oracle returned fewer
entries than the zip has pairs. -/
def pipelineBatchedLoop (O : Oracle) (use_alpha : Bool) (rank_start rank_end : Nat)
    (batched : List (String × Nat)) :
    List (Nat × (String × Nat)) → Nat → Store → Option Store
  | [], _, σ => some σ
  | (addr, pr) :: rest, index, σ => do
    let out ← batched[index]?
    let result ← σ[addr]?
    let info : RankingExecInfo := ⟨pr.1, out.1, pr.2, out.2⟩
    let r1 : Result :=
      { result with ranking_exec_summary := some ((result.ranking_exec_summary.getD []) ++ [info]) }
    let r2 ← receive_permutation O.rerank_type r1 out.1 rank_start rank_end use_alpha
    pipelineBatchedLoop O use_alpha rank_start rank_end batched rest (index + 1)
      (σ.set addr r2)

/-- Lines 168-203, `permutation_pipeline_batched`: render all prompts, run
the oracle once for the whole batch, then walk `zip(results, prompts)`.
NOTE: there is no length check anywhere — a prompt list shorter than the
result list is silently truncated by `zip` and the unpaired results are
never processed. -/
def permutation_pipeline_batched_st (O : Oracle) (σ : Store) (addrs : List Nat)
    (use_logits use_alpha : Bool) (rank_start rank_end : Nat) : Option Store := do
  let results ← addrs.mapM (fun a => σ[a]?)
  let prompts := O.create_prompt_batched results use_alpha rank_start rank_end 32
  let batched := O.run_llm_batched (prompts.map Prod.fst) use_logits use_alpha
    (rank_end - rank_start)
  pipelineBatchedLoop O use_alpha rank_start rank_end batched (addrs.zip prompts) 0 σ

/-- The window loop of `sliding_windows` (lines 235-241) over the result at
address `i`.  The slice bounds passed on are `max start_pos rank_start` and
`end_pos`, both nonnegative whenever `rank_start ≥ 0` (the loop guard keeps
`end_pos > rank_start`), so the `Int.toNat` conversions are lossless on the
Python-reachable inputs.  Fuel as described above. -/
def slidingLoopSt (O : Oracle) (use_logits use_alpha : Bool) (rank_start step : Int)
    (i : Nat) : Nat → Int → Int → Store → Option Store
  | 0, _, _, σ => some σ
  | fuel + 1, end_pos, start_pos, σ =>
    if rank_start < end_pos ∧ start_pos + step ≠ rank_start then
      match permutation_pipeline_st O σ i use_logits use_alpha
          (max start_pos rank_start).toNat end_pos.toNat with
      | none => none
      | some σ1 =>
        slidingLoopSt O use_logits use_alpha rank_start step i fuel (end_pos - step)
          (max start_pos rank_start - step) σ1
    else some σ

/-- Lines 205-245, `sliding_windows`: deep-copy the result at address `i` to
the fresh address `σ.length`, run the window loop on the copy, and return
the final store together with the address of the mutated copy. -/
def sliding_windows_st (O : Oracle) (σ : Store) (i : Nat) (use_logits use_alpha : Bool)
    (rank_start rank_end window_size step : Int) : Option (Store × Nat) := do
  let r ← σ[i]?
  let σ2 ← slidingLoopSt O use_logits use_alpha rank_start step σ.length
    ((rank_end - rank_start).toNat + 1) rank_end (rank_end - window_size) (σ ++ [r])
  pure (σ2, σ.length)

/-- The window loop of `sliding_windows_batched` (lines 277-283) over the
batch of addresses `addrs`. -/
def slidingLoopBatchedSt (O : Oracle) (use_logits use_alpha : Bool) (rank_start step : Int)
    (addrs : List Nat) : Nat → Int → Int → Store → Option Store
  | 0, _, _, σ => some σ
  | fuel + 1, end_pos, start_pos, σ =>
    if rank_start < end_pos ∧ start_pos + step ≠ rank_start then
      match permutation_pipeline_batched_st O σ addrs use_logits use_alpha
          (max start_pos rank_start).toNat end_pos.toNat with
      | none => none
      | some σ1 =>
        slidingLoopBatchedSt O use_logits use_alpha rank_start step addrs fuel
          (end_pos - step) (max start_pos rank_start - step) σ1
    else some σ

/-- Lines 247-284, `sliding_windows_batched`: deep-copy every result of the
batch to fresh addresses `σ.length, σ.length + 1, …`, run the window loop on
the copies in lockstep, and return the final store together with the
addresses of the mutated copies. -/
def sliding_windows_batched_st (O : Oracle) (σ : Store) (is : List Nat)
    (use_logits use_alpha : Bool) (rank_start rank_end window_size step : Int) :
    Option (Store × List Nat) := do
  let rs ← is.mapM (fun a => σ[a]?)
  let newAddrs := (List.range rs.length).map (· + σ.length)
  let σ2 ← slidingLoopBatchedSt O use_logits use_alpha rank_start step newAddrs
    ((rank_end - rank_start).toNat + 1) rank_end (rank_end - window_size) (σ ++ rs)
  pure (σ2, newAddrs)

/-! ## Proof artifacts

The remaining definitions are not transcriptions of Python code; they are
specification devices used to state and prove properties of the embedding
above. -/

/-- All hits of a slice agree on the PRESENCE of the `"rank"` key (either
every hit carries it or none does). -/
def rankUniform (cut : List Hit) : Prop :=
  (∀ h ∈ cut, h.rank.isSome = true) ∨ (∀ h ∈ cut, h.rank = none)

/-- All hits of a slice agree on the presence of the `"score"` key. -/
def scoreUniform (cut : List Hit) : Prop :=
  (∀ h ∈ cut, h.score.isSome = true) ∨ (∀ h ∈ cut, h.score = none)

/-- Sequentially overwrite `hits[i], hits[i+1], …` with the elements of
`ps` — the cumulative effect of the write-back loop once the patched hits
are known. -/
def overwriteAt : List Hit → Nat → List Hit → List Hit
  | hits, _, [] => hits
  | hits, i, p :: ps => overwriteAt (hits.set i p) (i + 1) ps

/-- The list of patched hits the write-back loop computes (position by
position), gathered instead of written. -/
def patchedSlice (cut : List Hit) : List Int → Nat → Option (List Hit)
  | [], _ => some []
  | x :: rest, j =>
    match patchAt cut x j with
    | none => none
    | some h =>
      match patchedSlice cut rest (j + 1) with
      | none => none
      | some hs => some (h :: hs)

/-- Payload of the slice element a merge-pipeline index refers to. -/
def docidAt (cut : List Hit) (x : Int) : Nat :=
  ((cut[x.toNat]?).map Hit.docid).getD 0

/-- The window slice `result.hits[rank_start:rank_end]`. -/
def windowSlice (result : Result) (rank_start rank_end : Nat) : List Hit :=
  (result.hits.drop rank_start).take (rank_end - rank_start)

/-! ### Concrete instances used when evaluating the model -/

/-- Three hits, all carrying a `rank` key and no `score` key. -/
def resUniform3 : Result :=
  ⟨[⟨0, some 1, none⟩, ⟨1, some 2, none⟩, ⟨2, some 3, none⟩], none⟩

/-- Two hits with NON-uniform key presence: the first lacks the `rank` key,
the second carries it. -/
def resMixed2 : Result := ⟨[⟨0, some 1, none⟩, ⟨1, none, none⟩], none⟩

/-- Three hits with non-uniform key presence: the first lacks the `rank`
key, the other two carry it. -/
def resMixed3 : Result := ⟨[⟨0, none, none⟩, ⟨1, some 5, none⟩, ⟨2, some 7, none⟩], none⟩

/-- A well-behaved concrete oracle: constant prompt, empty response,
batched variants aligned with their inputs. -/
def oracleId : Oracle :=
  ⟨fun _ _ _ _ => ("p", 3), fun _ _ _ _ => ("", 0),
    fun rs _ _ _ _ => rs.map (fun _ => ("p", 3)),
    fun ps _ _ _ => ps.map (fun _ => ("", 0)), "code"⟩

/-- An oracle whose `create_prompt_batched` collaborator renders a single
prompt regardless of how many results it is handed — the misalignment
scenario of the batched pipeline. -/
def oracleShort : Oracle :=
  ⟨fun _ _ _ _ => ("p", 1), fun _ _ _ _ => ("", 0),
    fun _ _ _ _ _ => [("p", 1)],
    fun ps _ _ _ => ps.map (fun _ => ("[1]", 2)), "code"⟩

/-- A one-hit ranking. -/
def resA : Result := ⟨[⟨0, some 1, none⟩], none⟩

/-- Another one-hit ranking. -/
def resB : Result := ⟨[⟨1, some 2, none⟩], none⟩

/-! ## Properties of `_remove_duplicate` and the merge index pipeline -/

theorem rdAux_mem (x : Int) : ∀ (l acc : List Int), x ∈ rdAux acc l ↔ x ∈ acc ∨ x ∈ l
  | [], acc => by simp [rdAux]
  | c :: rest, acc => by
    by_cases h : c ∈ acc
    · rw [rdAux, if_pos h, rdAux_mem x rest acc]
      constructor
      · rintro (h1 | h1)
        · exact Or.inl h1
        · exact Or.inr (List.mem_cons_of_mem _ h1)
      · rintro (h1 | h1)
        · exact Or.inl h1
        · rcases List.mem_cons.1 h1 with h2 | h2
          · exact Or.inl (h2 ▸ h)
          · exact Or.inr h2
    · rw [rdAux, if_neg h, rdAux_mem x rest (acc ++ [c])]
      simp only [List.mem_append, List.mem_singleton, List.mem_cons]
      tauto

theorem rdAux_nodup : ∀ (l acc : List Int), acc.Nodup → (rdAux acc l).Nodup
  | [], _, hacc => hacc
  | c :: rest, acc, hacc => by
    by_cases h : c ∈ acc
    · rw [rdAux, if_pos h]
      exact rdAux_nodup rest acc hacc
    · rw [rdAux, if_neg h]
      refine rdAux_nodup rest (acc ++ [c]) ?_
      simp [List.nodup_append, hacc, h]

theorem remove_duplicate_nodup (l : List Int) : (_remove_duplicate l).Nodup :=
  rdAux_nodup l [] List.nodup_nil

theorem remove_duplicate_mem (x : Int) (l : List Int) : x ∈ _remove_duplicate l ↔ x ∈ l := by
  rw [_remove_duplicate, rdAux_mem]
  simp

theorem mem_rangeInts {x : Int} {n : Nat} : x ∈ rangeInts n ↔ 0 ≤ x ∧ x < (n : Int) := by
  simp only [rangeInts, List.mem_map, List.mem_range]
  constructor
  · rintro ⟨k, hk, rfl⟩
    omega
  · rintro ⟨h1, h2⟩
    exact ⟨x.toNat, by omega, by omega⟩

theorem rangeInts_nodup (n : Nat) : (rangeInts n).Nodup :=
  (List.nodup_range n).map Nat.cast_injective

/-- The index pipeline of `receive_permutation` always produces a
permutation of `[0, …, n-1]`, whatever the raw oracle text. -/
theorem mergeIndices_perm (rt raw : String) (ua : Bool) (n : Nat) :
    (mergeIndices rt raw ua n).Perm (rangeInts n) := by
  rw [mergeIndices]
  set dd := _remove_duplicate (parsePermutation rt raw ua) with hdd
  set inRange := dd.filter (fun ss => decide (0 ≤ ss ∧ ss < (n : Int))) with hinR
  have hnodup : inRange.Nodup := (remove_duplicate_nodup _).filter _
  have hmemR : ∀ x ∈ inRange, x ∈ rangeInts n := by
    intro x hx
    have := List.of_mem_filter hx
    rw [mem_rangeInts]
    exact of_decide_eq_true this
  have hfil : (rangeInts n).filter (fun t => decide (t ∈ inRange)) |>.Nodup :=
    (rangeInts_nodup n).filter _
  have hperm1 : inRange.Perm ((rangeInts n).filter (fun t => decide (t ∈ inRange))) := by
    rw [List.perm_ext_iff_of_nodup hnodup hfil]
    intro a
    simp only [List.mem_filter, decide_eq_true_eq]
    exact ⟨fun h => ⟨hmemR a h, h⟩, fun h => h.2⟩
  have hperm2 :
      ((rangeInts n).filter (fun t => decide (t ∈ inRange)) ++
        (rangeInts n).filter (fun t => decide (t ∉ inRange))).Perm (rangeInts n) := by
    have := List.filter_append_perm (fun t => decide (t ∈ inRange)) (rangeInts n)
    simpa [decide_not] using this
  exact (hperm1.append_right _).trans hperm2

/-! ## Properties of the write-back loop -/

theorem overwriteAt_length : ∀ (ps hits : List Hit) (i : Nat),
    (overwriteAt hits i ps).length = hits.length
  | [], _, _ => rfl
  | p :: ps, hits, i => by
    rw [overwriteAt, overwriteAt_length ps (hits.set i p) (i + 1)]
    simp

theorem overwriteAt_getElem? : ∀ (ps hits : List Hit) (i k : Nat),
    (overwriteAt hits i ps)[k]? =
      if i ≤ k ∧ k < i + ps.length ∧ k < hits.length then ps[k - i]? else hits[k]?
  | [], hits, i, k => by
    simp only [overwriteAt, List.length_nil]
    rw [if_neg (by omega)]
  | p :: ps, hits, i, k => by
    rw [overwriteAt, overwriteAt_getElem? ps (hits.set i p) (i + 1) k]
    rcases Nat.lt_trichotomy k i with hk | hk | hk
    · rw [if_neg (by simp only [List.length_set]; omega),
        if_neg (by simp only [List.length_cons]; omega),
        List.getElem?_set_ne (by omega)]
    · subst hk
      rw [if_neg (by simp only [List.length_set]; omega), List.getElem?_set, if_pos rfl]
      by_cases hlen : k < hits.length
      · rw [if_pos hlen, if_pos (by simp only [List.length_cons]; omega)]
        simp
      · rw [if_neg hlen, if_neg (by simp only [List.length_cons]; omega)]
        exact (List.getElem?_eq_none (by omega)).symm
    · by_cases hin : k < i + 1 + ps.length ∧ k < hits.length
      · rw [if_pos (by simp only [List.length_set]; omega),
          if_pos (by simp only [List.length_cons]; omega)]
        have hki : k - i = (k - (i + 1)) + 1 := by omega
        rw [hki, List.getElem?_cons_succ]
      · rw [if_neg (by simp only [List.length_set]; omega),
          if_neg (by simp only [List.length_cons]; omega),
          List.getElem?_set_ne (by omega)]

theorem writeBack_eq (cut : List Hit) (a : Nat) : ∀ (resp : List Int) (j : Nat) (hits : List Hit),
    writeBack cut a resp j hits =
      (patchedSlice cut resp j).map (fun ps => overwriteAt hits (j + a) ps)
  | [], j, hits => rfl
  | x :: rest, j, hits => by
    cases hpa : patchAt cut x j with
    | none => simp [writeBack, patchedSlice, hpa]
    | some h =>
      simp only [writeBack, patchedSlice, hpa]
      rw [writeBack_eq cut a rest (j + 1) (hits.set (j + a) h)]
      cases hps : patchedSlice cut rest (j + 1) with
      | none => simp [hps]
      | some hs =>
        simp only [hps, Option.map_some']
        rw [overwriteAt]
        have hj : j + 1 + a = j + a + 1 := by omega
        rw [hj]

/-! ## The identity permutation -/

/-- On the diagonal (`x = j`) the write-back body moves a hit onto itself;
the rank/score patch then rewrites the fields with their own values, so the
result is exactly the original hit (and the out-of-range and `KeyError`
cases cannot fire). -/
theorem patchAt_diag (cut : List Hit) (j : Nat) : patchAt cut ((j : Nat) : Int) j = cut[j]? := by
  rw [patchAt, if_neg (by omega)]
  have ht : ((j : Int)).toNat = j := by omega
  rw [ht]
  cases hj : cut[j]? with
  | none => rfl
  | some moved =>
    cases hrk : moved.rank with
    | none =>
      cases hsc : moved.score with
      | none => simp [hrk, hsc]
      | some sc =>
        simp only [hrk, hj, hsc]
        cases moved
        simp_all
    | some r =>
      cases hsc : moved.score with
      | none =>
        simp only [hrk, hj, hsc]
        cases moved
        simp_all
      | some sc =>
        simp only [hrk, hj]
        cases moved
        simp_all

theorem patchedSlice_diag (cut : List Hit) :
    ∀ (k j : Nat), j + k ≤ cut.length →
      patchedSlice cut ((List.range' j k).map Nat.cast) j = some ((cut.drop j).take k)
  | 0, j, _ => by simp [patchedSlice]
  | k + 1, j, hjk => by
    rw [List.range'_succ, List.map_cons, patchedSlice, patchAt_diag,
      List.getElem?_eq_getElem (by omega)]
    rw [patchedSlice_diag cut k (j + 1) (by omega)]
    rw [List.drop_eq_getElem_cons (by omega : j < cut.length), List.take_succ_cons]

theorem overwriteAt_slice_self (hits : List Hit) (a m : Nat) :
    overwriteAt hits a ((hits.drop a).take m) = hits := by
  apply List.ext_getElem?
  intro k
  rw [overwriteAt_getElem?]
  split
  · rename_i hcond
    simp only [List.length_take, List.length_drop] at hcond
    rw [List.getElem?_take, if_pos (by omega), List.getElem?_drop]
    congr 1
    omega
  · rfl

theorem clean_empty (rt : String) (ua : Bool) : _clean_response rt "" ua = "" := by
  have hp : parse_reasoning_permutation "" = ("", false) := rfl
  by_cases h : rt = "code_reasoning" <;> cases ua <;> simp [_clean_response, h, hp] <;> rfl

theorem mergeIndices_empty (rt : String) (ua : Bool) (n : Nat) :
    mergeIndices rt "" ua n = rangeInts n := by
  have h1 : parsePermutation rt "" ua = [] := by
    rw [parsePermutation, clean_empty]
    rfl
  rw [mergeIndices, h1]
  simp [_remove_duplicate, rdAux]

/-! ## Success of the write-back loop under uniform key presence -/

theorem patchAt_uniform {cut : List Hit} {x : Int} {j : Nat} {moved : Hit}
    (hm : cut[x.toNat]? = some moved) (hx0 : 0 ≤ x) (hj : j < cut.length)
    (hr : rankUniform cut) (hs : scoreUniform cut) :
    ∃ h, patchAt cut x j = some h ∧ h.docid = moved.docid := by
  have hmem : moved ∈ cut := List.getElem?_mem hm
  obtain ⟨o, ho⟩ : ∃ o, cut[j]? = some o := ⟨_, List.getElem?_eq_getElem hj⟩
  have homem : o ∈ cut := List.getElem?_mem ho
  rw [patchAt, if_neg (by omega), hm]
  rcases hrk : moved.rank with _ | r
  · rcases hsc : moved.score with _ | sc
    · exact ⟨moved, by simp [hrk, hsc], rfl⟩
    · rcases hs with hs1 | hs2
      · obtain ⟨so, hso⟩ := Option.isSome_iff_exists.1 (hs1 o homem)
        exact ⟨{ moved with score := some so }, by simp [hrk, hsc, ho, hso], rfl⟩
      · exact absurd (hs2 moved hmem) (by simp [hsc])
  · rcases hr with hr1 | hr2
    · obtain ⟨ro, hro⟩ := Option.isSome_iff_exists.1 (hr1 o homem)
      rcases hsc : moved.score with _ | sc
      · exact ⟨{ moved with rank := some ro }, by simp [hrk, ho, hro, hsc], rfl⟩
      · rcases hs with hs1 | hs2
        · obtain ⟨so, hso⟩ := Option.isSome_iff_exists.1 (hs1 o homem)
          exact ⟨{ moved with rank := some ro, score := some so },
            by simp [hrk, ho, hro, hsc, hso], rfl⟩
        · exact absurd (hs2 moved hmem) (by simp [hsc])
    · exact absurd (hr2 moved hmem) (by simp [hrk])

theorem patchedSlice_uniform {cut : List Hit} (hr : rankUniform cut) (hs : scoreUniform cut) :
    ∀ (resp : List Int) (j : Nat),
      (∀ x ∈ resp, 0 ≤ x ∧ x.toNat < cut.length) → j + resp.length ≤ cut.length →
      ∃ ps, patchedSlice cut resp j = some ps ∧ ps.map Hit.docid = resp.map (docidAt cut)
  | [], _, _, _ => ⟨[], rfl, rfl⟩
  | x :: rest, j, hb, hlen => by
    obtain ⟨hx0, hxn⟩ := hb x (List.mem_cons_self x rest)
    obtain ⟨moved, hm⟩ : ∃ m, cut[x.toNat]? = some m :=
      ⟨_, List.getElem?_eq_getElem hxn⟩
    have hj : j < cut.length := by
      simp only [List.length_cons] at hlen
      omega
    obtain ⟨h, hph, hdoc⟩ := patchAt_uniform hm hx0 hj hr hs
    obtain ⟨ps, hps, hmap⟩ := patchedSlice_uniform hr hs rest (j + 1)
      (fun y hy => hb y (List.mem_cons_of_mem _ hy))
      (by simp only [List.length_cons] at hlen; omega)
    refine ⟨h :: ps, ?_, ?_⟩
    · rw [patchedSlice, hph, hps]
    · simp [hmap, hdoc, docidAt, hm]

theorem rangeInts_map_docidAt (cut : List Hit) :
    (rangeInts cut.length).map (docidAt cut) = cut.map Hit.docid := by
  apply List.ext_getElem?
  intro k
  simp only [rangeInts, List.map_map, List.getElem?_map]
  by_cases hk : k < cut.length
  · rw [List.getElem?_range hk, List.getElem?_eq_getElem hk]
    simp [docidAt, List.getElem?_eq_getElem hk]
  · rw [List.getElem?_eq_none (by simpa using hk), List.getElem?_eq_none (by omega)]
    rfl

/-! ## Shape of `findall` group captures -/

theorem matchBracket_head {s b r : List Char} (h : matchBracket s = some (b, r)) :
    ∃ t, b = '[' :: t := by
  unfold matchBracket at h
  split at h
  · dsimp only at h
    split at h
    · exact absurd h (by simp)
    · split at h
      · rw [Option.some.injEq, Prod.mk.injEq] at h
        exact ⟨_, h.1.symm⟩
      · exact absurd h (by simp)
  · exact absurd h (by simp)

theorem faAux_mem_head :
    ∀ (fuel : Nat) (s g : List Char), g ∈ faAux fuel s → ∃ t, g = '[' :: t
  | 0, _, _, h => absurd h (by simp [faAux])
  | _ + 1, [], _, h => absurd h (by simp [faAux])
  | fuel + 1, c :: s, g, h => by
    rw [faAux] at h
    cases hmb : matchBracket ((c :: s).dropWhile Char.isWhitespace) with
    | none =>
      rw [hmb] at h
      exact faAux_mem_head fuel s g h
    | some br =>
      obtain ⟨b, r1⟩ := br
      rw [hmb] at h
      rcases List.mem_cons.1 h with h1 | h1
      · obtain ⟨t, ht⟩ := matchBracket_head hmb
        exact ⟨t ++ (chainAux r1.length r1).1, by rw [h1, ht]; rfl⟩
      · exact faAux_mem_head fuel _ g h1

theorem dropWhile_append_singleton {p : Char → Bool} {c : Char} (hc : p c = false) :
    ∀ l : List Char, ∃ v, (l ++ [c]).dropWhile p = v ++ [c]
  | [] => ⟨[], by simp [List.dropWhile, hc]⟩
  | a :: l => by
    by_cases ha : p a
    · obtain ⟨v, hv⟩ := dropWhile_append_singleton hc l
      exact ⟨v, by simp [List.dropWhile, ha, hv]⟩
    · exact ⟨a :: l, by simp [List.dropWhile, ha]⟩

theorem pyStrip_head_not_ws (c : Char) (hc : c.isWhitespace = false) (t : List Char) :
    ∃ u, pyStrip (c :: t) = c :: u := by
  rw [pyStrip, List.dropWhile_cons]
  rw [if_neg (by simp [hc])]
  have : (c :: t).reverse = t.reverse ++ [c] := by simp
  rw [this]
  obtain ⟨v, hv⟩ := dropWhile_append_singleton hc t.reverse
  rw [hv]
  exact ⟨v.reverse, by simp⟩

/-! ## Agreement of the two window loops under divisibility -/

theorem schedWinF_eq_costWinF (a t w : Int) (ht : 0 < t) (hw : 0 < w) :
    ∀ (fuel : Nat) (e s : Int), e - s = w → a ≤ s → t ∣ (s - a) →
      schedWinF a t fuel e s = costWinF a t fuel e s
  | 0, _, _, _, _, _ => rfl
  | fuel + 1, e, s, hes, has, hdvd => by
    rw [schedWinF, costWinF, if_pos ⟨by omega, by omega⟩, if_pos has]
    rw [max_eq_left has]
    by_cases hsa : a ≤ s - t
    · have hdvd2 : t ∣ (s - t - a) := by
        obtain ⟨k, hk⟩ := hdvd
        exact ⟨k - 1, by linarith [hk]⟩
      rw [schedWinF_eq_costWinF a t w ht hw fuel (e - t) (s - t) (by omega) hsa hdvd2]
    · have hseq : s = a := by
        have h0 : s - a = 0 :=
          Int.eq_zero_of_dvd_of_nonneg_of_lt (by omega) (by omega) hdvd
        omega
      subst hseq
      congr 1
      cases fuel with
      | zero => rfl
      | succ f =>
        rw [schedWinF, costWinF, if_neg (by omega), if_neg (by omega)]

/-! ## Frame properties of the store pipeline -/

theorem pipeline_st_frame {O : Oracle} {σ σ1 : Store} {i : Nat} {ul ua : Bool} {a b : Nat}
    (h : permutation_pipeline_st O σ i ul ua a b = some σ1) :
    σ1.length = σ.length ∧ ∀ k, k ≠ i → σ1[k]? = σ[k]? := by
  simp only [permutation_pipeline_st, Option.bind_eq_bind, Option.bind_eq_some] at h
  obtain ⟨r, _, h⟩ := h
  obtain ⟨r2, _, h⟩ := h
  simp only [Option.pure_def, Option.some.injEq] at h
  subst h
  refine ⟨by simp, fun k hk => List.getElem?_set_ne (fun hik => hk hik.symm)⟩

theorem slidingLoopSt_frame (O : Oracle) (ul ua : Bool) (a t : Int) (i : Nat) :
    ∀ (fuel : Nat) (e s : Int) (σ σf : Store),
      slidingLoopSt O ul ua a t i fuel e s σ = some σf →
      σf.length = σ.length ∧ ∀ k, k ≠ i → σf[k]? = σ[k]?
  | 0, _, _, _, _, h => by
    rw [slidingLoopSt, Option.some.injEq] at h
    subst h
    exact ⟨rfl, fun _ _ => rfl⟩
  | fuel + 1, e, s, σ, σf, h => by
    rw [slidingLoopSt] at h
    split at h
    · cases hp : permutation_pipeline_st O σ i ul ua (max s a).toNat e.toNat with
      | none => rw [hp] at h; exact absurd h (by simp)
      | some σ1 =>
        rw [hp] at h
        obtain ⟨hl1, hf1⟩ := pipeline_st_frame hp
        obtain ⟨hl2, hf2⟩ := slidingLoopSt_frame O ul ua a t i fuel _ _ σ1 σf h
        exact ⟨hl2.trans hl1, fun k hk => (hf2 k hk).trans (hf1 k hk)⟩
    · rw [Option.some.injEq] at h
      subst h
      exact ⟨rfl, fun _ _ => rfl⟩

theorem pipelineBatchedLoop_frame (O : Oracle) (ua : Bool) (a b : Nat)
    (batched : List (String × Nat)) :
    ∀ (pairs : List (Nat × (String × Nat))) (index : Nat) (σ σf : Store),
      pipelineBatchedLoop O ua a b batched pairs index σ = some σf →
      σf.length = σ.length ∧ ∀ k, (∀ p ∈ pairs, k ≠ p.1) → σf[k]? = σ[k]?
  | [], _, σ, σf, h => by
    rw [pipelineBatchedLoop, Option.some.injEq] at h
    subst h
    exact ⟨rfl, fun _ _ => rfl⟩
  | (addr, pr) :: rest, index, σ, σf, h => by
    rw [pipelineBatchedLoop] at h
    simp only [Option.bind_eq_bind, Option.bind_eq_some] at h
    obtain ⟨out, _, h⟩ := h
    obtain ⟨r, _, h⟩ := h
    obtain ⟨r2, _, h⟩ := h
    obtain ⟨hl, hf⟩ := pipelineBatchedLoop_frame O ua a b batched rest (index + 1)
      (σ.set addr r2) σf h
    refine ⟨by simp [hl], fun k hk => ?_⟩
    rw [hf k (fun p hp => hk p (List.mem_cons_of_mem _ hp))]
    exact List.getElem?_set_ne
      (fun hik => hk (addr, pr) (List.mem_cons_self _ _) hik.symm)

theorem pipeline_batched_st_frame {O : Oracle} {σ σf : Store} {addrs : List Nat}
    {ul ua : Bool} {a b : Nat}
    (h : permutation_pipeline_batched_st O σ addrs ul ua a b = some σf) :
    σf.length = σ.length ∧ ∀ k, k ∉ addrs → σf[k]? = σ[k]? := by
  simp only [permutation_pipeline_batched_st, Option.bind_eq_bind, Option.bind_eq_some] at h
  obtain ⟨results, _, h⟩ := h
  obtain ⟨hl, hf⟩ := pipelineBatchedLoop_frame O ua a b _ (addrs.zip _) 0 σ σf h
  refine ⟨hl, fun k hk => hf k (fun p hp => ?_)⟩
  intro hkp
  exact hk (hkp ▸ (List.of_mem_zip hp).1)

theorem slidingLoopBatchedSt_frame (O : Oracle) (ul ua : Bool) (a t : Int) (addrs : List Nat) :
    ∀ (fuel : Nat) (e s : Int) (σ σf : Store),
      slidingLoopBatchedSt O ul ua a t addrs fuel e s σ = some σf →
      σf.length = σ.length ∧ ∀ k, k ∉ addrs → σf[k]? = σ[k]?
  | 0, _, _, _, _, h => by
    rw [slidingLoopBatchedSt, Option.some.injEq] at h
    subst h
    exact ⟨rfl, fun _ _ => rfl⟩
  | fuel + 1, e, s, σ, σf, h => by
    rw [slidingLoopBatchedSt] at h
    split at h
    · cases hp : permutation_pipeline_batched_st O σ addrs ul ua (max s a).toNat e.toNat with
      | none => rw [hp] at h; exact absurd h (by simp)
      | some σ1 =>
        rw [hp] at h
        obtain ⟨hl1, hf1⟩ := pipeline_batched_st_frame hp
        obtain ⟨hl2, hf2⟩ := slidingLoopBatchedSt_frame O ul ua a t addrs fuel _ _ σ1 σf h
        exact ⟨hl2.trans hl1, fun k hk => (hf2 k hk).trans (hf1 k hk)⟩
    · rw [Option.some.injEq] at h
      subst h
      exact ⟨rfl, fun _ _ => rfl⟩

/-! ## `receive_permutation` under uniform key presence -/

theorem receive_permutation_uniform (rt raw : String) (ua : Bool) {result : Result}
    {a b : Nat} (hr : rankUniform ((result.hits.drop a).take (b - a)))
    (hs : scoreUniform ((result.hits.drop a).take (b - a))) :
    ∃ ps, patchedSlice ((result.hits.drop a).take (b - a))
        (mergeIndices rt raw ua ((result.hits.drop a).take (b - a)).length) 0 = some ps ∧
      receive_permutation rt result raw a b ua =
        some { result with hits := overwriteAt result.hits a ps } ∧
      ps.length = ((result.hits.drop a).take (b - a)).length ∧
      (ps.map Hit.docid).Perm (((result.hits.drop a).take (b - a)).map Hit.docid) := by
  have hperm := mergeIndices_perm rt raw ua ((result.hits.drop a).take (b - a)).length
  have hrespLen : (mergeIndices rt raw ua ((result.hits.drop a).take (b - a)).length).length
      = ((result.hits.drop a).take (b - a)).length := by
    rw [hperm.length_eq]
    simp [rangeInts]
  have hbounds : ∀ x ∈ mergeIndices rt raw ua ((result.hits.drop a).take (b - a)).length,
      0 ≤ x ∧ x.toNat < ((result.hits.drop a).take (b - a)).length := by
    intro x hx
    have hx2 := hperm.mem_iff.1 hx
    rw [mem_rangeInts] at hx2
    omega
  obtain ⟨ps, hps, hmap⟩ := patchedSlice_uniform hr hs
    (mergeIndices rt raw ua ((result.hits.drop a).take (b - a)).length) 0 hbounds
    (by omega)
  refine ⟨ps, hps, ?_, ?_, ?_⟩
  · simp only [receive_permutation]
    rw [writeBack_eq, hps]
    simp
  · have := congrArg List.length hmap
    simpa using this.trans (by simpa using hrespLen)
  · rw [hmap]
    have h2 := hperm.map (docidAt ((result.hits.drop a).take (b - a)))
    exact h2.trans (by rw [rangeInts_map_docidAt])

/-! # Claims -/

/-- C1 counterexample: the claim quantifies over EVERY window slice, but on
a two-hit slice where hit 0 carries the `rank` key and hit 1 does not, the
raw permutation `"[2] > [1]"` makes `receive_permutation` raise `KeyError`
(modelled `none`) instead of rewriting the window with a permutation of the
slice. -/
theorem C1_totality_counterexample :
    receive_permutation "code" resMixed2 "[2] > [1]" 0 2 false = none := by decide

/-- C1 amended: for every window slice with UNIFORM presence of the `rank`
and `score` keys and arbitrary raw oracle text, `receive_permutation`
succeeds and rewrites positions `rank_start … rank_end-1` with a sequence
of length exactly `n` whose payloads are a permutation of the original
slice (none lost, none duplicated), leaves everything outside the window
and the execution trace unchanged, and the underlying index sequence is a
permutation of `[0, n)` — even under empty or malformed oracle output. -/
theorem C1_totality_amended (rt raw : String) (ua : Bool) (result : Result)
    (rank_start rank_end : Nat)
    (hr : rankUniform (windowSlice result rank_start rank_end))
    (hs : scoreUniform (windowSlice result rank_start rank_end)) :
    (mergeIndices rt raw ua (windowSlice result rank_start rank_end).length).Perm
        (rangeInts (windowSlice result rank_start rank_end).length) ∧
    (receive_permutation rt result raw rank_start rank_end ua).isSome = true ∧
    ((receive_permutation rt result raw rank_start rank_end ua).getD result).hits.length
        = result.hits.length ∧
    ((receive_permutation rt result raw rank_start rank_end ua).getD
        result).ranking_exec_summary = result.ranking_exec_summary ∧
    (∀ k, k < rank_start ∨ rank_start + (windowSlice result rank_start rank_end).length ≤ k →
      (((receive_permutation rt result raw rank_start rank_end ua).getD result).hits)[k]?
        = result.hits[k]?) ∧
    ((windowSlice ((receive_permutation rt result raw rank_start rank_end ua).getD result)
        rank_start rank_end).map Hit.docid).Perm
      ((windowSlice result rank_start rank_end).map Hit.docid) := by
  obtain ⟨ps, hps, hrp, hlen, hpermdoc⟩ :=
    receive_permutation_uniform rt raw ua hr hs
  have hn : (windowSlice result rank_start rank_end).length
      = min (rank_end - rank_start) (result.hits.length - rank_start) := by
    simp [windowSlice]
  have hps_len : ps.length = (windowSlice result rank_start rank_end).length := hlen
  refine ⟨mergeIndices_perm rt raw ua _, ?_, ?_, ?_, ?_, ?_⟩
  · rw [hrp]
    rfl
  · rw [hrp, Option.getD_some]
    exact overwriteAt_length ps result.hits rank_start
  · rw [hrp, Option.getD_some]
  · intro k hk
    rw [hrp, Option.getD_some]
    show (overwriteAt result.hits rank_start ps)[k]? = result.hits[k]?
    rw [overwriteAt_getElem?, if_neg]
    rintro ⟨h1, h2, h3⟩
    rcases hk with hk | hk
    · omega
    · rw [hps_len, hn] at h2
      omega
  · rw [hrp, Option.getD_some]
    have hslice : windowSlice { result with hits := overwriteAt result.hits rank_start ps }
        rank_start rank_end = ps := by
      have hkmin : ps.length = min (rank_end - rank_start) (result.hits.length - rank_start) :=
        hps_len.trans hn
      apply List.ext_getElem?
      intro k
      show (((overwriteAt result.hits rank_start ps).drop rank_start).take
        (rank_end - rank_start))[k]? = ps[k]?
      rw [List.getElem?_take]
      by_cases hk : k < ps.length
      · rw [if_pos (by omega), List.getElem?_drop, overwriteAt_getElem?,
          if_pos ⟨by omega, by omega, by omega⟩]
        congr 1
        omega
      · have h2 : ps[k]? = none := List.getElem?_eq_none (by omega)
        rw [h2]
        split
        · rw [List.getElem?_drop, overwriteAt_getElem?,
            if_neg (by rintro ⟨hx1, hx2, hx3⟩; omega)]
          exact List.getElem?_eq_none (by omega)
        · rfl
    rw [hslice]
    exact hpermdoc

/-- C1 witness: at a concrete uniform three-hit slice and raw text naming a
duplicate-free mix of valid and invalid indices, the amended theorem applies:
the merged index sequence is a permutation of `[0, 3)` and the call
succeeds. -/
theorem C1_totality_witness :
    (mergeIndices "code" "[2] > [1] > [9]" false
        (windowSlice resUniform3 0 3).length).Perm
      (rangeInts (windowSlice resUniform3 0 3).length) ∧
    (receive_permutation "code" resUniform3 "[2] > [1] > [9]" 0 3 false).isSome = true := by
  have h := C1_totality_amended "code" "[2] > [1] > [9]" false resUniform3 0 3
    (by unfold rankUniform; exact Or.inl (by decide))
    (by unfold scoreUniform; exact Or.inr (by decide))
  exact ⟨h.1, h.2.1⟩

/-- C2 (confirmed): the scheduler loop starts at `end = rank_end`,
`start = rank_end - window_size`, repeats while `end > rank_start` and
`start + step ≠ rank_start` (clamping `start` to `rank_start`, processing,
then decrementing both bounds by `step`); with `window_size = 20`,
`step = 10`, `rank_start = 0`, `rank_end = 100` it processes exactly the
nine windows `(80,100) … (0,20)` in that descending order, with no repeated
window and none below `rank_start`. -/
theorem C2_window_sequence :
    schedulerWindows 0 100 20 10 =
      [(80, 100), (70, 90), (60, 80), (50, 70), (40, 60), (30, 50), (20, 40),
        (10, 30), (0, 20)] ∧
    (schedulerWindows 0 100 20 10).length = 9 ∧
    (schedulerWindows 0 100 20 10).Nodup ∧
    ∀ w ∈ schedulerWindows 0 100 20 10, 0 ≤ w.1 :=
  ⟨by decide, by decide, by decide, by decide⟩

/-- C3 (confirmed): merging with the empty raw permutation returns the
result object unchanged — hit content, order, every rank/score field and
the execution trace — for any rerank type, window bounds and alphabet
flag. -/
theorem C3_identity_on_empty (rt : String) (result : Result) (rank_start rank_end : Nat)
    (use_alpha : Bool) :
    receive_permutation rt result "" rank_start rank_end use_alpha = some result := by
  simp only [receive_permutation, mergeIndices_empty]
  rw [writeBack_eq]
  have hr : rangeInts ((result.hits.drop rank_start).take (rank_end - rank_start)).length
      = (List.range' 0 ((result.hits.drop rank_start).take
          (rank_end - rank_start)).length).map Nat.cast := by
    rw [rangeInts, List.range_eq_range']
  rw [hr, patchedSlice_diag _ _ 0 (by omega)]
  simp only [List.drop_zero, List.take_length, Option.map_some', Nat.zero_add]
  rw [overwriteAt_slice_self]

/-- C4 (confirmed): de-duplication keeps first occurrences, out-of-range
indices are discarded, unmentioned indices are appended in original order:
on a 3-item slice `"[2] > [2] > [1]"` merges to source order `[1, 0, 2]`
(rank fields staying positional) and `"[5] > [1]"` merges to source order
`[0, 1, 2]` with the out-of-range index discarded. -/
theorem C4_duplicate_and_out_of_range :
    mergeIndices "code" "[2] > [2] > [1]" false 3 = [1, 0, 2] ∧
    mergeIndices "code" "[5] > [1]" false 3 = [0, 1, 2] ∧
    receive_permutation "code" resUniform3 "[2] > [2] > [1]" 0 3 false =
      some ⟨[⟨1, some 1, none⟩, ⟨0, some 2, none⟩, ⟨2, some 3, none⟩], none⟩ ∧
    receive_permutation "code" resUniform3 "[5] > [1]" 0 3 false = some resUniform3 :=
  ⟨by decide, by decide, by decide, by decide⟩

/-- C5 counterexample: `clean("[C] > [A]", use_alpha=True)` yields
`"3     1"` — the interior separator run is NOT collapsed — so it differs
from the claimed `"3 1"`; and a lowercase letter is not mapped like its
uppercase form: `clean("[c]", True)` yields `"35"` (`ord('c') - 64`), not
`"3"`. -/
theorem C5_cleaning_counterexample :
    _clean_response "code" "[C] > [A]" true ≠ "3 1" ∧
    _clean_response "code" "[c]" true = "35" :=
  ⟨by decide, by decide⟩

/-- C5 amended: in alphabetic mode every alphabetic character `c` maps to
the decimal digits of `ord(c) - 64` — uppercase letters to their 1-based
alphabet ordinal, lowercase letters to ordinal + 32 — and every
non-alphabetic character to one space; the result is trimmed at both ends
but interior separator runs are kept, so the output splits on whitespace
into the expected numerals: `clean("[C] > [A]", True) = "3     1"` with
token list `["3", "1"]`, and `clean("[c] > [a]", True) = "35     33"`. -/
theorem C5_cleaning_amended :
    _clean_response "code" "[C] > [A]" true = "3     1" ∧
    pySplit (_clean_response "code" "[C] > [A]" true) = ["3".data, "1".data] ∧
    _clean_response "code" "[c] > [a]" true = "35     33" ∧
    _clean_response "code" "[B]" true = "2" :=
  ⟨by decide, by decide, by decide, by decide⟩

/-- C6 (confirmed): if both end-markers are present and the region between
them matches the ordered-list pattern, the first match is returned with
`matched = true`; otherwise the entire raw response is scanned and the
first candidate containing a `>` separator is returned with
`matched = true` (single-token candidates rejected); if none qualifies the
raw response is returned unchanged with `matched = false`. -/
theorem C6_reasoning_parse_fallback (response : String) :
    (∀ g gs, hasBothMarkers response = true →
      findallRanked (regionOf response) = g :: gs →
      parse_reasoning_permutation response = (String.mk (pyStrip g), true)) ∧
    (hasBothMarkers response = false ∨ findallRanked (regionOf response) = [] →
      parse_reasoning_permutation response =
        match (findallRanked response.data).find? (fun cand => cand.contains '>') with
        | some cand => (String.mk cand, true)
        | none => (response, false)) := by
  constructor
  · intro g gs hmk hf
    obtain ⟨t, ht⟩ := faAux_mem_head _ _ g (hf ▸ List.mem_cons_self g gs)
    obtain ⟨u, hu⟩ := pyStrip_head_not_ws '[' (by decide) t
    rw [parse_reasoning_permutation, if_pos hmk, hf]
    subst ht
    dsimp only
    rw [hu]
    simp
  · intro hcase
    rcases hcase with hmk | hemp
    · rw [parse_reasoning_permutation, if_neg (by simp [hmk])]
    · by_cases hmk : hasBothMarkers response
      · rw [parse_reasoning_permutation, if_pos hmk, hemp]
      · rw [parse_reasoning_permutation, if_neg hmk]

/-- C6 witness: a response with both markers and a ranked list in the
answer region takes the marker branch; a response with no markers but a
multi-token list in flowing text takes the fallback with `matched = true`;
a response whose only candidate is a single token fails with
`matched = false`. -/
theorem C6_reasoning_parse_witness :
    parse_reasoning_permutation "x</think><answer>[1] > [2]</answer>" = ("[1] > [2]", true) ∧
    parse_reasoning_permutation "no markers [3] > [1] here" = ("[3] > [1]", true) ∧
    parse_reasoning_permutation "single [3] only" = ("single [3] only", false) :=
  ⟨(C6_reasoning_parse_fallback _).1 "[1] > [2]".data [] (by decide) (by decide),
   (C6_reasoning_parse_fallback _).2 (Or.inl (by decide)),
   (C6_reasoning_parse_fallback _).2 (Or.inl (by decide))⟩

/-- C7 counterexample: with `rank_start = 0`, `rank_end = 25`,
`window_size = 20`, `step = 10` the scheduler clamps and processes a final
window `(0, 15)` that the cost estimator's `start_pos ≥ rank_start`
loop never visits, so the two window sequences differ. -/
theorem C7_window_agreement_counterexample :
    schedulerWindows 0 25 20 10 = [(5, 25), (0, 15)] ∧
    costWindows 0 25 20 10 = [(5, 25)] ∧
    schedulerWindows 0 25 20 10 ≠ costWindows 0 25 20 10 :=
  ⟨by decide, by decide, by decide⟩

/-- C7 amended: the cost estimator's window sequence matches the
scheduler's whenever the geometry needs no clamping and no
redundant-window suppression, i.e. when `step > 0`, `window_size > 0`,
`rank_start + window_size ≤ rank_end` and
`step ∣ (rank_end - window_size - rank_start)`; outside this regime the
two sequences can differ (see the counterexample). -/
theorem C7_window_agreement_amended (rank_start rank_end window_size step : Int)
    (ht : 0 < step) (hw : 0 < window_size)
    (hwin : rank_start + window_size ≤ rank_end)
    (hdvd : step ∣ (rank_end - window_size - rank_start)) :
    schedulerWindows rank_start rank_end window_size step =
      costWindows rank_start rank_end window_size step := by
  rw [schedulerWindows, costWindows]
  exact schedWinF_eq_costWinF rank_start step window_size ht hw _ rank_end
    (rank_end - window_size) (by omega) (by omega) hdvd

/-- C7 witness: at the canonical parameters `(0, 100, 20, 10)` the two
window sequences coincide. -/
theorem C7_window_agreement_witness :
    schedulerWindows 0 100 20 10 = costWindows 0 100 20 10 :=
  C7_window_agreement_amended 0 100 20 10 (by decide) (by decide) (by decide)
    ⟨8, by decide⟩

/-- C8 (confirmed): the top-level entry points operate on a deep copy:
whenever `sliding_windows` (resp. `sliding_windows_batched`) completes,
every pre-existing store address — in particular the caller's original
`Result` object(s), hits, rank/score fields and execution traces included —
holds exactly the value it held before the call, and the returned address
is the fresh copy appended at `σ.length`. -/
theorem C8_deep_copy_frame (O : Oracle) (σ : Store) (i : Nat) (is : List Nat)
    (ul ua : Bool) (a b w t : Int) :
    (∀ σ' j, sliding_windows_st O σ i ul ua a b w t = some (σ', j) →
      j = σ.length ∧ ∀ k, k < σ.length → σ'[k]? = σ[k]?) ∧
    (∀ σ' js, sliding_windows_batched_st O σ is ul ua a b w t = some (σ', js) →
      ∀ k, k < σ.length → σ'[k]? = σ[k]?) := by
  constructor
  · intro σ' j h
    simp only [sliding_windows_st, Option.bind_eq_bind, Option.bind_eq_some] at h
    obtain ⟨r, hri, h⟩ := h
    obtain ⟨σ2, hloop, h⟩ := h
    simp only [Option.pure_def, Option.some.injEq, Prod.mk.injEq] at h
    obtain ⟨hσ, hj⟩ := h
    subst hσ
    refine ⟨hj.symm, fun k hk => ?_⟩
    obtain ⟨_, hf⟩ := slidingLoopSt_frame O ul ua a t σ.length _ _ _ _ _ hloop
    rw [hf k (by omega), List.getElem?_append_left hk]
  · intro σ' js h
    simp only [sliding_windows_batched_st, Option.bind_eq_bind, Option.bind_eq_some] at h
    obtain ⟨rs, hrs, h⟩ := h
    obtain ⟨σ2, hloop, h⟩ := h
    simp only [Option.pure_def, Option.some.injEq, Prod.mk.injEq] at h
    obtain ⟨hσ, hjs⟩ := h
    subst hσ
    intro k hk
    obtain ⟨_, hf⟩ := slidingLoopBatchedSt_frame O ul ua a t _ _ _ _ _ _ hloop
    rw [hf k ?_, List.getElem?_append_left hk]
    intro hmem
    simp only [List.mem_map, List.mem_range] at hmem
    omega

/-- C8 witness: a concrete one-window run over a one-result store: the
entry point returns the fresh address `1` and the caller's result at
address `0` is unchanged. -/
theorem C8_deep_copy_witness :
    sliding_windows_st oracleId [resA] 0 false false 0 1 1 1 =
      some ([resA, ⟨[⟨0, some 1, none⟩], some [⟨"p", "", 3, 0⟩]⟩], 1) ∧
    (1 : Nat) = [resA].length ∧
    [resA, ⟨[⟨0, some 1, none⟩], some [⟨"p", "", 3, 0⟩]⟩][0]? = [resA][0]? := by
  have h : sliding_windows_st oracleId [resA] 0 false false 0 1 1 1 =
      some ([resA, ⟨[⟨0, some 1, none⟩], some [⟨"p", "", 3, 0⟩]⟩], 1) := by decide
  have h2 := (C8_deep_copy_frame oracleId [resA] 0 [] false false 0 1 1 1).1 _ _ h
  exact ⟨h, h2.1, h2.2 0 (by decide)⟩

/-- C9 (code bug evidence): handed two rankings while the prompt
collaborator rendered only one prompt, the batched pipeline raises no
precondition violation at all — the oracle is still invoked, `zip`
silently truncates the pairing, the first ranking is processed and the
second is returned completely untouched. -/
theorem C9_silent_truncation_on_mismatch :
    permutation_pipeline_batched_st oracleShort [resA, resB] [0, 1] false false 0 1 =
      some [⟨[⟨0, some 1, none⟩], some [⟨"p", "[1]", 1, 2⟩]⟩, resB] := by decide

/-- C10 (confirmed): `receive_permutation` checks key presence on the hit
MOVED into each output position but reads the replacement value from the
hit ORIGINALLY at that position, so on a slice with non-uniform key
presence there are oracle permutations that raise `KeyError` (modelled
`none`) — here `"[3] > [1] > [2]"` moves a rank-carrying hit onto the
keyless position 0 — while others (the identity) still succeed. -/
theorem C10_keyerror_on_mixed_slice :
    receive_permutation "code" resMixed3 "[3] > [1] > [2]" 0 3 false = none ∧
    receive_permutation "code" resMixed3 "" 0 3 false = some resMixed3 :=
  ⟨by decide, by decide⟩

end SweRank
